import Mathlib

/-!
Shallow embedding of the optimal-interpolation fusion engine
(`processor.py` of Daniele-Di-Bella/optimal_interpolation).

Scalars are modelled as rationals.  The stochastic per-element error ratio
(`random.uniform(0, 0.5)` in `processor.py` line 45) is passed explicitly as a
list parameter `err`, making the randomness injectable; nothing else in the
algorithm is stochastic.  Fallible code paths (the `raise` statements and the
`assert`) are modelled with `Except`.
-/

/-- A 2D array of rationals, as produced by `load_dataset`. -/
abbrev Grid := List (List ℚ)

/-- One flattened record `(lat, lon, value)` as built at
`processor.py` lines 112 and 115. -/
abbrev Rec3 := ℚ × ℚ × ℚ

/-- Total 2D indexing `g[m][n]` (numpy arrays are rectangular; out-of-range
reads never occur in the modelled paths and default to 0). -/
def getE (g : Grid) (m n : ℕ) : ℚ := (g.getD m []).getD n 0

/-- Functional update `g[m][n] := v`; `List.set` is the identity out of range. -/
def set2 (g : Grid) (m n : ℕ) (v : ℚ) : Grid := g.set m ((g.getD m []).set n v)

/-- Error kinds of the engine: the `NotImplementedError` of
`processor.py` lines 34-36; the neighborhood-size `assert` of lines 141-142;
the `IndexError` raised by `itm[2]` at line 23 when an item has fewer than
three entries (`size` its actual length, `index` the index 2 being read);
and the `IndexError` raised by `syn_prod[m][n]` at line 71 when `m` and `n`
are floating-point values rather than integer indices. -/
inductive ProcErr where
  | unsupportedOperator (supported : List String) (provided : String)
  | neighborhoodSizeMismatch (expected actual : ℤ)
  | indexError (size index : ℕ)
  | invalidIndex (m n : ℚ)
deriving DecidableEq

/-- `xb = np.array([itm[2] for itm in back_sel])` (`processor.py` line 23). -/
def xbOf (back_sel : List (ℕ × ℕ × ℚ)) : List ℚ := back_sel.map (fun itm => itm.2.2)

/-- `R = (0.5 * y_meas) ** 2` (`processor.py` line 27). -/
def Rof (y_meas : ℚ) : ℚ := (1/2 * y_meas)^2

/-- `H = sum(xb) / len(xb)` (`processor.py` line 39). -/
def Hmean (xb : List ℚ) : ℚ := xb.sum / (xb.length : ℚ)

/-- `Hdot = np.ones((1, len(xb))) * 1 / len(xb)` (`processor.py` lines 40-41). -/
def HdotMean (n : ℕ) : List ℚ := List.replicate n (1 / (n : ℚ))

/-- `eb = np.multiply(xb, err)` (`processor.py` line 47). -/
def ebOf (xb err : List ℚ) : List ℚ := List.zipWith (fun a b => a * b) xb err

/-- `Pb = np.outer(eb, eb.transpose())` (`processor.py` line 49). -/
def PbOf (eb : List ℚ) : List (List ℚ) := eb.map (fun a => eb.map (fun b => a * b))

/-- Dot product of two equal-length vectors. -/
def dotL (a b : List ℚ) : ℚ := (List.zipWith (fun x y => x * y) a b).sum

/-- Matrix-vector product, used for `np.dot(Pb, np.transpose(Hdot))`
(`processor.py` line 57). -/
def matVec (M : List (List ℚ)) (v : List ℚ) : List ℚ := M.map (fun row => dotL row v)

/-- `Num = np.dot(Pb, np.transpose(Hdot))` (`processor.py` line 57). -/
def numOf (Pb : List (List ℚ)) (Hdot : List ℚ) : List ℚ := matVec Pb Hdot

/-- `Den = np.dot(Hdot, Num) + R` (`processor.py` line 58). -/
def denOf (Hdot Num : List ℚ) (R : ℚ) : ℚ := dotL Hdot Num + R

/-- `K = Num / Den` — elementwise division of the vector by the scalar
(`processor.py` line 61).  No zero-denominator check appears in the source. -/
def gainK (Num : List ℚ) (Den : ℚ) : List ℚ := Num.map (fun x => x / Den)

/-- `xa = xb + (K * (y_meas - H))` (`processor.py` line 65). -/
def xaOf (xb K : List ℚ) (y_meas H : ℚ) : List ℚ :=
  List.zipWith (fun x k => x + k * (y_meas - H)) xb K

/-- `supported_functions = ["mean"]` (`processor.py` line 30). -/
def supported_functions : List String := ["mean"]

/-- The analysis-vector computation of `optimal_interpolation`
(`processor.py` lines 23-65): operator dispatch on `map_func` (lines 30-41),
covariance from the injected error vector (lines 45-49), gain (lines 56-61)
and analysis (line 65). -/
def oiXa (xb : List ℚ) (map_func : String) (err : List ℚ) (y_meas : ℚ) :
    Except ProcErr (List ℚ) :=
  if map_func ∈ supported_functions then
    let H := Hmean xb
    let Hdot := HdotMean xb.length
    let eb := ebOf xb err
    let Pb := PbOf eb
    let Num := numOf Pb Hdot
    let Den := denOf Hdot Num (Rof y_meas)
    let K := gainK Num Den
    Except.ok (xaOf xb K y_meas H)
  else Except.error (ProcErr.unsupportedOperator supported_functions map_func)

/-- The write-back loop of `processor.py` lines 68-71:
`syn_prod[m][n] += xa[item]` with `m = back_sel[item][0]`,
`n = back_sel[item][1]`. -/
def writeBack (syn : Grid) : List (ℕ × ℕ × ℚ) → List ℚ → Grid
  | [], _ => syn
  | _ :: _, [] => syn
  | p :: rest, a :: as =>
    writeBack (set2 syn p.1 p.2.1 (getE syn p.1 p.2.1 + a)) rest as

/-- `optimal_interpolation` (`processor.py` lines 8-73): computes the analysis
vector and accumulates it into `syn_prod` at the indices carried by
`back_sel`. -/
def optimal_interpolation (syn_prod : Grid) (y_meas : ℚ)
    (back_sel : List (ℕ × ℕ × ℚ)) (map_func : String) (err : List ℚ) :
    Except ProcErr Grid :=
  (oiXa (xbOf back_sel) map_func err y_meas).map (fun xa => writeBack syn_prod back_sel xa)

/-- `syne = np.zeros(smooth.shape)` (`processor.py` line 108). -/
def synInit (smooth : Grid) : Grid := smooth.map (fun row => row.map (fun _ => 0))

/-- The per-record selection condition of `processor.py` lines 132-137:
a fine record `f` is kept for the coarse record `c` when its latitude lies
within `c.lat ± ratLat/2` and its longitude within `c.lon ± ratLon/2`
(closed bounds on all four comparisons).  `ratLat`/`ratLon` are the
integer ratio values the loop uses. -/
def matchCond (ratLat ratLon : ℤ) (c f : Rec3) : Bool :=
  decide (f.1 ≤ c.1 + (ratLat : ℚ)/2) && decide (c.1 - (ratLat : ℚ)/2 ≤ f.1) &&
  decide (f.2.1 ≤ c.2.1 + (ratLon : ℚ)/2) && decide (c.2.1 - (ratLon : ℚ)/2 ≤ f.2.1)

/-- `indices = np.where(...)` over the flattened fine records
(`processor.py` lines 132-137): the fine records satisfying the window
condition, in flattening order. -/
def selectNbhd (ratLat ratLon : ℤ) (fine : List Rec3) (c : Rec3) : List Rec3 :=
  fine.filter (matchCond ratLat ratLon c)

/-- `selected = [map_smooth[index, 2] for index in indices]`
(`processor.py` line 139): `indices` is the TUPLE returned by `np.where` —
one index array for the single axis of the condition — so the comprehension
yields a one-element list whose sole entry is the array of the matched
records' values (column 2).  In particular `len(selected)` is the tuple
arity 1, not the matched-record count. -/
def selectedLists (ratLat ratLon : ℤ) (fine : List Rec3) (c : Rec3) : List (List ℚ) :=
  [(selectNbhd ratLat ratLon fine c).map (fun f => f.2.2)]

/-- Round half to even, the rounding rule of `np.round`. -/
def roundHalfEven (q : ℚ) : ℤ :=
  let f := ⌊q⌋
  let r := q - (f : ℚ)
  if r < 1/2 then f else if 1/2 < r then f + 1 else if f % 2 = 0 then f else f + 1

/-- Broadcast index: a length-1 axis is repeated (numpy broadcasting). -/
def bIdx (n i : ℕ) : ℕ := if n = 1 then 0 else i

/-- Number of rows of a 2D array. -/
def rowsOf (g : Grid) : ℕ := g.length

/-- Number of columns of a (rectangular) 2D array. -/
def colsOf (g : Grid) : ℕ := (g.headD []).length

/-- Elementwise division `s / c` of two 2D arrays under numpy broadcasting:
defined when each axis pair is equal or one of the two is 1; the result has
the broadcast shape and entry `(i, j)` equal to
`s[bIdx i][bIdx j] / c[bIdx i][bIdx j]`. -/
def elemDivB (s c : Grid) : Option Grid :=
  if (rowsOf s = rowsOf c ∨ rowsOf s = 1 ∨ rowsOf c = 1) ∧
      (colsOf s = colsOf c ∨ colsOf s = 1 ∨ colsOf c = 1) then
    some ((List.range (max (rowsOf s) (rowsOf c))).map (fun i =>
      (List.range (max (colsOf s) (colsOf c))).map (fun j =>
        getE s (bIdx (rowsOf s) i) (bIdx (colsOf s) j) /
          getE c (bIdx (rowsOf c) i) (bIdx (colsOf c) j))))
  else none

/-- `np.int32(np.round(s_lat / c_lat))` (`processor.py` lines 102-103): the
fine coordinate array is divided elementwise (with broadcasting) by the
coarse coordinate array and each quotient is rounded half-to-even.  The
same computation serves both axes. -/
def ratioArr (s c : Grid) : Option (List (List ℤ)) :=
  (elemDivB s c).map (fun g => g.map (fun row => row.map roundHalfEven))

/-- The flattening comprehensions of `processor.py` lines 111-115:
`[(lat[m, n], lon[m, n], vals[m, n]) for m, n in np.ndindex(vals.shape)]`,
i.e. one record per cell in row-major order over the shape of the value
array. -/
def flattenGrid (vals lats lons : Grid) : List Rec3 :=
  ((List.range (rowsOf vals)).map (fun m =>
    (List.range (colsOf vals)).map (fun n =>
      ((getE lats m n, getE lons m n, getE vals m n) : Rec3)))).flatten

/-- The raise conditions of `processor.py` lines 117-123: an exception is
raised when a flattened record count disagrees with the corresponding array
size. -/
def mapSizeRaise (lenSmooth sizeSmooth lenCoarse sizeCoarse : ℕ) : Option String :=
  if lenSmooth ≠ sizeSmooth then
    some "Something was wrong in the formation of the mapping array: map_smooth.size != smooth.size"
  else if lenCoarse ≠ sizeCoarse then
    some "Something was wrong in the formation of the mapping array: map_coarse.size != coarse.size"
  else none

/-- The whole try/except statement of `processor.py` lines 117-127 as it
affects control flow: the except clause catches the raised exception and
only prints it (lines 124-127), so the step completes normally in every
case and execution continues into the coarse-cell loop. -/
def mapSizeCheckStep (lenSmooth sizeSmooth lenCoarse sizeCoarse : ℕ) : Except ProcErr Unit :=
  match mapSizeRaise lenSmooth sizeSmooth lenCoarse sizeCoarse with
  | some _ => Except.ok ()
  | none => Except.ok ()

instance {ε α : Type} [DecidableEq ε] [DecidableEq α] : DecidableEq (Except ε α) := fun a b =>
  match a, b with
  | Except.ok x, Except.ok y =>
    if h : x = y then isTrue (by rw [h]) else isFalse (by intro hc; cases hc; exact h rfl)
  | Except.error x, Except.error y =>
    if h : x = y then isTrue (by rw [h]) else isFalse (by intro hc; cases hc; exact h rfl)
  | Except.ok _, Except.error _ => isFalse (by intro hc; cases hc)
  | Except.error _, Except.ok _ => isFalse (by intro hc; cases hc)

/-- Total contribution that the write-back loop of `processor.py` lines 68-71
adds to cell `(m, n)`: the sum of the `xa` entries whose `back_sel` record
carries index `(m, n)`. -/
def contrib : List (ℕ × ℕ × ℚ) → List ℚ → ℕ → ℕ → ℚ
  | [], _, _, _ => 0
  | _ :: _, [], _, _ => 0
  | p :: rest, a :: as, m, n =>
    (if p.1 = m ∧ p.2.1 = n then a else 0) + contrib rest as m n

/-! ### Helper lemmas -/

theorem getD_map' {α β : Type} (f : α → β) (a : List α) (i : ℕ) (da : α) (db : β)
    (h : i < a.length) : (a.map f).getD i db = f (a.getD i da) := by
  induction a generalizing i with
  | nil => simp at h
  | cons x xs ih =>
    cases i with
    | zero => simp
    | succ j =>
      simp only [List.map_cons, List.getD_cons_succ]
      exact ih j (by simpa using h)

theorem getD_zipWith' (f : ℚ → ℚ → ℚ) (a b : List ℚ) (i : ℕ) (d : ℚ)
    (ha : i < a.length) (hb : i < b.length) :
    (List.zipWith f a b).getD i d = f (a.getD i d) (b.getD i d) := by
  induction a generalizing b i with
  | nil => simp at ha
  | cons x xs ih =>
    cases b with
    | nil => simp at hb
    | cons y ys =>
      cases i with
      | zero => simp
      | succ j =>
        simp only [List.zipWith_cons_cons, List.getD_cons_succ]
        exact ih ys j (by simpa using ha) (by simpa using hb)

theorem getD_of_le {α : Type} (l : List α) (i : ℕ) (d : α) (h : l.length ≤ i) :
    l.getD i d = d := by
  induction l generalizing i with
  | nil => simp
  | cons x xs ih =>
    cases i with
    | zero => simp at h
    | succ j =>
      simp only [List.getD_cons_succ]
      exact ih j (by simpa using h)

theorem dotL_map_mul_left (c : ℚ) (a b : List ℚ) :
    dotL (a.map (fun x => c * x)) b = c * dotL a b := by
  induction a generalizing b with
  | nil => simp [dotL]
  | cons x xs ih =>
    cases b with
    | nil => simp [dotL]
    | cons y ys =>
      simp only [List.map_cons, dotL, List.zipWith_cons_cons, List.sum_cons] at ih ⊢
      rw [ih]; ring

theorem dotL_map_mul_right (c : ℚ) (a b : List ℚ) :
    dotL a (b.map (fun x => x * c)) = c * dotL a b := by
  induction a generalizing b with
  | nil => simp [dotL]
  | cons x xs ih =>
    cases b with
    | nil => simp [dotL]
    | cons y ys =>
      simp only [List.map_cons, dotL, List.zipWith_cons_cons, List.sum_cons] at ih ⊢
      rw [ih]; ring

theorem dotL_comm (a b : List ℚ) : dotL a b = dotL b a := by
  induction a generalizing b with
  | nil => cases b <;> simp [dotL]
  | cons x xs ih =>
    cases b with
    | nil => simp [dotL]
    | cons y ys =>
      simp only [dotL, List.zipWith_cons_cons, List.sum_cons] at ih ⊢
      rw [ih]; ring

theorem dotL_replicate_zero (n : ℕ) (b : List ℚ) : dotL (List.replicate n 0) b = 0 := by
  induction n generalizing b with
  | zero => simp [dotL]
  | succ m ih =>
    cases b with
    | nil => simp [dotL]
    | cons y ys =>
      simp only [List.replicate_succ, dotL, List.zipWith_cons_cons, List.sum_cons] at ih ⊢
      rw [ih ys]; ring

theorem numOf_PbOf (eb Hdot : List ℚ) :
    numOf (PbOf eb) Hdot = eb.map (fun a => a * dotL eb Hdot) := by
  simp only [numOf, matVec, PbOf, List.map_map, Function.comp]
  exact List.map_congr_left (fun a _ => dotL_map_mul_left a eb Hdot)

theorem denOf_PbOf (eb Hdot : List ℚ) (R : ℚ) :
    denOf Hdot (numOf (PbOf eb) Hdot) R = dotL eb Hdot * dotL eb Hdot + R := by
  rw [denOf, numOf_PbOf, dotL_map_mul_right, dotL_comm]

theorem oiXa_mean (xb err : List ℚ) (y : ℚ) :
    oiXa xb "mean" err y =
      Except.ok (xaOf xb
        (gainK (numOf (PbOf (ebOf xb err)) (HdotMean xb.length))
          (denOf (HdotMean xb.length) (numOf (PbOf (ebOf xb err)) (HdotMean xb.length))
            (Rof y)))
        y (Hmean xb)) := by
  simp [oiXa, supported_functions]

theorem ebOf_zero (xb err : List ℚ) (hlen : err.length = xb.length)
    (hz : ∀ e ∈ err, e = 0) : ebOf xb err = List.replicate xb.length 0 := by
  induction xb generalizing err with
  | nil =>
    cases err with
    | nil => simp [ebOf]
    | cons e es => simp at hlen
  | cons x xs ih =>
    cases err with
    | nil => simp at hlen
    | cons e es =>
      have he : e = 0 := hz e (by simp)
      have ht : ebOf xs es = List.replicate xs.length 0 :=
        ih es (by simpa using hlen) (fun a ha => hz a (by simp [ha]))
      simp only [ebOf, List.zipWith_cons_cons, List.length_cons, List.replicate_succ] at ht ⊢
      rw [he, mul_zero, ht]

theorem xaOf_zero_gain (xb : List ℚ) (y H : ℚ) :
    xaOf xb (List.replicate xb.length 0) y H = xb := by
  induction xb with
  | nil => simp [xaOf]
  | cons x xs ih =>
    simp only [xaOf, List.length_cons, List.replicate_succ, List.zipWith_cons_cons] at ih ⊢
    rw [zero_mul, add_zero, ih]

example : oiXa [1, 1] "mean" [0, 0] 3 = Except.ok [1, 1] := by
  norm_num [oiXa, supported_functions, Hmean, HdotMean, ebOf, PbOf, numOf, matVec, dotL,
    denOf, gainK, xaOf, Rof, List.replicate_succ]
example : optimal_interpolation [[5]] 0 [(0, 0, 0)] "mean" [0] = Except.ok [[5]] := by
  norm_num [optimal_interpolation, oiXa, supported_functions, Hmean, HdotMean, ebOf, PbOf,
    numOf, matVec, dotL, denOf, gainK, xaOf, Rof, xbOf, writeBack, set2, getE,
    List.replicate_succ, Except.map]
example : oiXa [1] "max" [0] 3 =
    Except.error (ProcErr.unsupportedOperator ["mean"] "max") := by
  have h : ("max" : String) ≠ "mean" := by decide
  simp [oiXa, supported_functions, h]

/-! ### Claims about the estimator (`optimal_interpolation`) -/

/-- Claim C1: for every neighborhood `back_sel` of length `n ≥ 1`, injected
error vector of length `n`, and observation `y`, the estimator succeeds with
the mean operator and returns `xa` of length `n` whose `i`-th element is
`xb i + K i * (y - H(xb))`, where `K = (Pb · Hdotᵀ) / (Hdot · Pb · Hdotᵀ + R)`
with the vector divided elementwise by the scalar denominator and
`R = (0.5 * y)^2`. -/
theorem claim_C1_estimator (back_sel : List (ℕ × ℕ × ℚ)) (err : List ℚ) (y : ℚ)
    (hn : 1 ≤ back_sel.length) (herr : err.length = back_sel.length) :
    ∃ xa, oiXa (xbOf back_sel) "mean" err y = Except.ok xa ∧
      xa.length = back_sel.length ∧
      ∀ i, i < back_sel.length →
        xa.getD i 0 =
          (xbOf back_sel).getD i 0 +
            (numOf (PbOf (ebOf (xbOf back_sel) err)) (HdotMean back_sel.length)).getD i 0 /
              (dotL (HdotMean back_sel.length)
                  (numOf (PbOf (ebOf (xbOf back_sel) err)) (HdotMean back_sel.length)) +
                (1/2 * y)^2) *
            (y - Hmean (xbOf back_sel)) := by
  have hxb : (xbOf back_sel).length = back_sel.length := by simp [xbOf]
  have hK :
      (gainK (numOf (PbOf (ebOf (xbOf back_sel) err)) (HdotMean back_sel.length))
          (denOf (HdotMean back_sel.length)
            (numOf (PbOf (ebOf (xbOf back_sel) err)) (HdotMean back_sel.length))
            (Rof y))).length = back_sel.length := by
    simp [gainK, numOf, matVec, PbOf, ebOf, herr, hxb]
  have hNum : (numOf (PbOf (ebOf (xbOf back_sel) err)) (HdotMean back_sel.length)).length
      = back_sel.length := by
    simp [numOf, matVec, PbOf, ebOf, herr, hxb]
  refine ⟨_, oiXa_mean (xbOf back_sel) err y, ?_, ?_⟩
  · rw [hxb]
    simp only [xaOf, List.length_zipWith, hxb, hK]
    exact Nat.min_self _
  · intro i hi
    rw [hxb]
    rw [xaOf, getD_zipWith' _ _ _ i 0 (by rw [hxb]; exact hi) (by rw [hK]; exact hi)]
    rw [gainK, getD_map' _ _ i 0 0 (by rw [hNum]; exact hi)]
    rw [denOf, Rof]

/-- Witness for C1 at `back_sel = [(0, 0, 2)]`, `err = [1/4]`, `y = 3`. -/
theorem claim_C1_estimator_witness :
    ∃ xa, oiXa (xbOf [((0 : ℕ), (0 : ℕ), (2 : ℚ))]) "mean" [1/4] 3 = Except.ok xa ∧
      xa.length = 1 := by
  obtain ⟨xa, h1, h2, h3⟩ :=
    claim_C1_estimator [((0 : ℕ), (0 : ℕ), (2 : ℚ))] [1/4] 3 (by decide) (by decide)
  exact ⟨xa, h1, by simpa using h2⟩

/-- Claim C5: if the injected per-element error vector is all zero, `Pb` is the
zero matrix, the gain is the zero vector, and the analysis equals the
background, for every observation value `y`. -/
theorem claim_C5_zero_error (xb err : List ℚ) (y : ℚ)
    (hlen : err.length = xb.length) (hz : ∀ e ∈ err, e = 0) :
    (∀ row ∈ PbOf (ebOf xb err), ∀ x ∈ row, x = 0) ∧
    gainK (numOf (PbOf (ebOf xb err)) (HdotMean xb.length))
        (denOf (HdotMean xb.length) (numOf (PbOf (ebOf xb err)) (HdotMean xb.length))
          (Rof y)) = List.replicate xb.length 0 ∧
    oiXa xb "mean" err y = Except.ok xb := by
  have heb : ebOf xb err = List.replicate xb.length 0 := ebOf_zero xb err hlen hz
  have hPb : PbOf (ebOf xb err) = List.replicate xb.length (List.replicate xb.length 0) := by
    rw [heb]
    simp [PbOf, List.map_replicate]
  have hNum : numOf (PbOf (ebOf xb err)) (HdotMean xb.length) =
      List.replicate xb.length 0 := by
    rw [hPb]
    simp [numOf, matVec, List.map_replicate, dotL_replicate_zero]
  have hK : gainK (numOf (PbOf (ebOf xb err)) (HdotMean xb.length))
      (denOf (HdotMean xb.length) (numOf (PbOf (ebOf xb err)) (HdotMean xb.length))
        (Rof y)) = List.replicate xb.length 0 := by
    rw [hNum]
    simp [gainK, List.map_replicate]
  refine ⟨?_, hK, ?_⟩
  · intro row hrow x hx
    rw [hPb] at hrow
    rw [List.eq_of_mem_replicate hrow] at hx
    exact List.eq_of_mem_replicate hx
  · rw [oiXa_mean, hK, xaOf_zero_gain]

/-- Witness for C5 at `xb = [2, 3]`, `err = [0, 0]`, `y = 7`. -/
theorem claim_C5_zero_error_witness : oiXa [2, 3] "mean" [0, 0] 7 = Except.ok [2, 3] :=
  (claim_C5_zero_error [2, 3] [0, 0] 7 (by decide) (by decide)).2.2

/-- Claim C6: with the background covariance built by the code (the outer
product of the error vector with itself) and any Jacobian row `Hdot`, the
absolute gain is elementwise antitone in the observation-error variance:
for `0 ≤ R1 ≤ R2` every element of `|K|` at `R2` is at most the
corresponding element at `R1`. -/
theorem claim_C6_monotone_trust (xb err Hdot : List ℚ) (R1 R2 : ℚ)
    (h0 : 0 ≤ R1) (h12 : R1 ≤ R2) (i : ℕ) :
    |(gainK (numOf (PbOf (ebOf xb err)) Hdot)
        (denOf Hdot (numOf (PbOf (ebOf xb err)) Hdot) R2)).getD i 0| ≤
      |(gainK (numOf (PbOf (ebOf xb err)) Hdot)
          (denOf Hdot (numOf (PbOf (ebOf xb err)) Hdot) R1)).getD i 0| := by
  have hlen : ∀ R : ℚ, (gainK (numOf (PbOf (ebOf xb err)) Hdot)
      (denOf Hdot (numOf (PbOf (ebOf xb err)) Hdot) R)).length = (ebOf xb err).length := by
    intro R
    simp [gainK, numOf, matVec, PbOf]
  rcases le_or_lt (ebOf xb err).length i with hge | hlt
  · rw [getD_of_le _ _ _ (by rw [hlen]; exact hge), getD_of_le _ _ _ (by rw [hlen]; exact hge)]
  · have hNum : i < (numOf (PbOf (ebOf xb err)) Hdot).length := by
      simpa [numOf, matVec, PbOf] using hlt
    rw [gainK, getD_map' _ _ i 0 0 hNum, gainK, getD_map' _ _ i 0 0 hNum]
    rw [denOf_PbOf, denOf_PbOf, numOf_PbOf, getD_map' _ _ i 0 0 hlt]
    set s := dotL (ebOf xb err) Hdot with hs
    set e := (ebOf xb err).getD i 0 with he
    by_cases hzero : s = 0
    · simp [hzero]
    · have hss : 0 < s * s := mul_self_pos.mpr hzero
      have hd1 : 0 < s * s + R1 := by linarith
      have hd2 : 0 < s * s + R2 := by linarith
      rw [abs_div, abs_div, abs_of_pos hd1, abs_of_pos hd2]
      exact div_le_div_of_nonneg_left (abs_nonneg _) hd1 (by linarith)

/-- Witness for C6 at `xb = [1]`, `err = [1]`, `Hdot = [1]`, `R1 = 0`,
`R2 = 1`, `i = 0`. -/
theorem claim_C6_monotone_trust_witness :
    |(gainK (numOf (PbOf (ebOf [1] [1])) [1])
        (denOf [1] (numOf (PbOf (ebOf [1] [1])) [1]) 1)).getD 0 0| ≤
      |(gainK (numOf (PbOf (ebOf [1] [1])) [1])
          (denOf [1] (numOf (PbOf (ebOf [1] [1])) [1]) 0)).getD 0 0| :=
  claim_C6_monotone_trust [1] [1] [1] 0 1 (by norm_num) (by norm_num) 0

/-- Claim C7 (code bug): on an input whose gain denominator
`Hdot · Pb · Hdotᵀ + R` is zero (all-zero background with `y = 0`), the code
performs the division anyway and returns normally; no numeric error is
raised for the offending cell. -/
theorem claim_C7_degenerate_denominator :
    denOf (HdotMean 1) (numOf (PbOf (ebOf (xbOf [((0 : ℕ), (0 : ℕ), (0 : ℚ))]) [0]))
        (HdotMean 1)) (Rof 0) = 0 ∧
    optimal_interpolation [[5]] 0 [((0 : ℕ), (0 : ℕ), (0 : ℚ))] "mean" [0] =
      Except.ok [[5]] := by
  constructor
  · norm_num [denOf, numOf, matVec, dotL, PbOf, ebOf, xbOf, HdotMean, Rof,
      List.replicate_succ]
  · norm_num [optimal_interpolation, oiXa, supported_functions, Hmean, HdotMean, ebOf,
      PbOf, numOf, matVec, dotL, denOf, gainK, xaOf, Rof, xbOf, writeBack, set2, getE,
      List.replicate_succ, Except.map]

/-! ### Claims about neighborhood selection and the coarse-cell loop -/

/-- Claim C3: the selected neighborhood of a coarse record is exactly the set
of fine records whose latitude lies in the closed interval
`[c.lat - ratLat/2, c.lat + ratLat/2]` and whose longitude lies in the closed
interval `[c.lon - ratLon/2, c.lon + ratLon/2]` — an axis-aligned closed
bounding box. -/
theorem claim_C3_bounding_box (ratLat ratLon : ℤ) (c : Rec3) (fine : List Rec3) (r : Rec3) :
    r ∈ selectNbhd ratLat ratLon fine c ↔
      (r ∈ fine ∧
        c.1 - (ratLat : ℚ)/2 ≤ r.1 ∧ r.1 ≤ c.1 + (ratLat : ℚ)/2 ∧
        c.2.1 - (ratLon : ℚ)/2 ≤ r.2.1 ∧ r.2.1 ≤ c.2.1 + (ratLon : ℚ)/2) := by
  simp only [selectNbhd, List.mem_filter, matchCond, Bool.and_eq_true, decide_eq_true_eq]
  tauto

theorem oiXa_error_form (xb : List ℚ) (map_func : String) (err : List ℚ) (y : ℚ)
    (e : ProcErr) (h : oiXa xb map_func err y = Except.error e) :
    e = ProcErr.unsupportedOperator supported_functions map_func := by
  by_cases hm : map_func ∈ supported_functions
  · simp [oiXa, hm] at h
  · simp [oiXa, hm] at h
    exact h.symm

theorem selectedLists_length (ratLat ratLon : ℤ) (fine : List Rec3) (c : Rec3) :
    (selectedLists ratLat ratLon fine c).length = 1 := rfl

theorem getD_append_left' {α : Type} (l l' : List α) (i : ℕ) (d : α) (h : i < l.length) :
    (l ++ l').getD i d = l.getD i d := by
  induction l generalizing i with
  | nil => simp at h
  | cons x xs ih =>
    cases i with
    | zero => simp
    | succ j =>
      simp only [List.cons_append, List.getD_cons_succ]
      exact ih j (by simpa using h)

theorem getD_append_right' {α : Type} (l l' : List α) (i : ℕ) (d : α) :
    (l ++ l').getD (l.length + i) d = l'.getD i d := by
  induction l with
  | nil => simp
  | cons x xs ih =>
    simp only [List.cons_append, List.length_cons]
    rw [Nat.succ_add, List.getD_cons_succ]
    exact ih

theorem getD_range' (k i : ℕ) (d : ℕ) (h : i < k) : (List.range k).getD i d = i := by
  induction k with
  | zero => omega
  | succ m ih =>
    rw [List.range_succ]
    rcases Nat.lt_or_ge i m with hlt | hge
    · rw [getD_append_left' _ _ _ _ (by simpa using hlt)]
      exact ih hlt
    · have him : i = m := by omega
      subst him
      have hl : (List.range i).length = i := List.length_range i
      have hr := getD_append_right' (List.range i) [i] 0 d
      rw [hl, Nat.add_zero] at hr
      rw [hr]
      rfl

theorem flatten_length_uniform {α : Type} (L : List (List α)) (c : ℕ)
    (h : ∀ l ∈ L, l.length = c) : L.flatten.length = L.length * c := by
  induction L with
  | nil => simp
  | cons row rest ih =>
    simp only [List.flatten_cons, List.length_append, List.length_cons]
    rw [h row (by simp), ih (fun l hl => h l (by simp [hl])), Nat.succ_mul, Nat.add_comm]

theorem flatten_getD_uniform {α : Type} (L : List (List α)) (c : ℕ) (d : α)
    (hL : ∀ l ∈ L, l.length = c) (m n : ℕ) (hm : m < L.length) (hn : n < c) :
    L.flatten.getD (m * c + n) d = (L.getD m []).getD n d := by
  induction L generalizing m with
  | nil => simp at hm
  | cons row rest ih =>
    have hrow : row.length = c := hL row (by simp)
    cases m with
    | zero =>
      simp only [List.flatten_cons, Nat.zero_mul, Nat.zero_add, List.getD_cons_zero]
      exact getD_append_left' _ _ _ _ (by rw [hrow]; exact hn)
    | succ k =>
      simp only [List.flatten_cons, List.getD_cons_succ]
      have hidx : (k + 1) * c + n = row.length + (k * c + n) := by rw [hrow]; ring
      rw [hidx, getD_append_right']
      exact ih (fun l hl => hL l (by simp [hl])) k (by simpa using hm)

theorem flattenGrid_length (vals lats lons : Grid) :
    (flattenGrid vals lats lons).length = rowsOf vals * colsOf vals := by
  unfold flattenGrid
  rw [flatten_length_uniform _ (colsOf vals) ?_]
  · simp
  · intro l hl
    obtain ⟨m, hm, rfl⟩ := List.mem_map.mp hl
    simp

theorem flattenGrid_getD (vals lats lons : Grid) (m n : ℕ)
    (hm : m < rowsOf vals) (hn : n < colsOf vals) :
    (flattenGrid vals lats lons).getD (m * colsOf vals + n) ((0 : ℚ), (0 : ℚ), (0 : ℚ)) =
      (getE lats m n, getE lons m n, getE vals m n) := by
  unfold flattenGrid
  rw [flatten_getD_uniform _ (colsOf vals) _ ?_ m n ?_ hn]
  · rw [getD_map' _ _ m 0 [] (by simpa using hm), getD_range' _ _ _ hm]
    rw [getD_map' _ _ n 0 ((0 : ℚ), (0 : ℚ), (0 : ℚ)) (by simpa using hn),
      getD_range' _ _ _ hn]
  · intro l hl
    obtain ⟨j, hj, rfl⟩ := List.mem_map.mp hl
    simp
  · simpa using hm

/-- Counterexample to claim C9: a disagreement between a flattened record
count and the declared array size does not abort the run — the raise of
lines 118-123 is caught by the except clause of lines 124-127, which only
prints, and the step completes normally. -/
theorem claim_C9_counterexample :
    (∃ msg, mapSizeRaise 3 4 1 1 = some msg) ∧ mapSizeCheckStep 3 4 1 1 = Except.ok () :=
  ⟨⟨_, rfl⟩, rfl⟩

/-- Claim C9 as amended: flattening a 2D grid of shape `(r, c)` always
produces exactly `r * c` records, one per cell in row-major order (record
`m * c + n` holds the coordinates and value of cell `(m, n)`), so the count
check of lines 117-127 can never fire; moreover that check swallows its own
exception (the except clause only prints), so even a hypothetical
disagreement would not abort the run. -/
theorem claim_C9_flatten_row_major :
    (∀ vals lats lons : Grid,
      (flattenGrid vals lats lons).length = rowsOf vals * colsOf vals) ∧
    (∀ vals lats lons : Grid, ∀ m n : ℕ, m < rowsOf vals → n < colsOf vals →
      (flattenGrid vals lats lons).getD (m * colsOf vals + n) ((0 : ℚ), (0 : ℚ), (0 : ℚ)) =
        (getE lats m n, getE lons m n, getE vals m n)) ∧
    (∀ a b c d : ℕ, mapSizeCheckStep a b c d = Except.ok ()) := by
  refine ⟨flattenGrid_length, flattenGrid_getD, ?_⟩
  intro a b c d
  unfold mapSizeCheckStep
  cases mapSizeRaise a b c d <;> rfl

/-- Witness for the amended C9 at a concrete `2 × 2` grid and cell `(1, 0)`. -/
theorem claim_C9_flatten_row_major_witness :
    (flattenGrid [[1, 2], [3, 4]] [[5, 6], [7, 8]] [[9, 10], [11, 12]]).length = 2 * 2 ∧
    (flattenGrid [[1, 2], [3, 4]] [[5, 6], [7, 8]] [[9, 10], [11, 12]]).getD
        (1 * 2 + 0) ((0 : ℚ), (0 : ℚ), (0 : ℚ)) = ((7 : ℚ), (11 : ℚ), (3 : ℚ)) ∧
    mapSizeCheckStep 0 1 2 2 = Except.ok () := by
  refine ⟨?_, ?_, claim_C9_flatten_row_major.2.2 0 1 2 2⟩
  · have h := claim_C9_flatten_row_major.1 [[1, 2], [3, 4]] [[5, 6], [7, 8]]
      [[9, 10], [11, 12]]
    simpa [rowsOf, colsOf] using h
  · have h := claim_C9_flatten_row_major.2.1 [[1, 2], [3, 4]] [[5, 6], [7, 8]]
      [[9, 10], [11, 12]] 1 0 (by simp [rowsOf]) (by simp [colsOf])
    simpa [colsOf, getE] using h

theorem getD_set' {α : Type} (l : List α) (i : ℕ) (v : α) (j : ℕ) (d : α) :
    (l.set i v).getD j d = if i = j ∧ i < l.length then v else l.getD j d := by
  induction l generalizing i j with
  | nil => simp
  | cons x xs ih =>
    cases i with
    | zero =>
      cases j with
      | zero => simp
      | succ jj => simp
    | succ k =>
      cases j with
      | zero => simp
      | succ jj =>
        simp only [List.set_cons_succ, List.getD_cons_succ, List.length_cons]
        rw [ih]
        have : (k = jj ∧ k < xs.length) ↔ (k + 1 = jj + 1 ∧ k + 1 < xs.length + 1) := by omega
        by_cases h : k = jj ∧ k < xs.length
        · rw [if_pos h, if_pos (this.mp h)]
        · rw [if_neg h, if_neg (fun hc => h (this.mpr hc))]

theorem set2_length (g : Grid) (i j : ℕ) (v : ℚ) : (set2 g i j v).length = g.length := by
  simp [set2]

theorem set2_row_length (g : Grid) (i j m : ℕ) (v : ℚ) :
    ((set2 g i j v).getD m []).length = (g.getD m []).length := by
  unfold set2
  rw [getD_set']
  by_cases h : i = m ∧ i < g.length
  · rw [if_pos h, List.length_set, h.1]
  · rw [if_neg h]

theorem getE_set2_eq (g : Grid) (i j : ℕ) (v : ℚ) (hi : i < g.length)
    (hj : j < (g.getD i []).length) : getE (set2 g i j v) i j = v := by
  unfold getE set2
  rw [getD_set', if_pos ⟨rfl, hi⟩, getD_set', if_pos ⟨rfl, hj⟩]

theorem getE_set2_ne (g : Grid) (i j m n : ℕ) (v : ℚ) (h : ¬(i = m ∧ j = n)) :
    getE (set2 g i j v) m n = getE g m n := by
  unfold getE set2
  rw [getD_set']
  by_cases him : i = m ∧ i < g.length
  · rw [if_pos him, getD_set']
    have hjn : ¬(j = n ∧ j < (g.getD i []).length) := by
      intro hc
      exact h ⟨him.1, hc.1⟩
    rw [if_neg hjn, him.1]
  · rw [if_neg him]

theorem contrib_zero (bs : List (ℕ × ℕ × ℚ)) (xa : List ℚ) (m n : ℕ)
    (h : ∀ p ∈ bs, ¬(p.1 = m ∧ p.2.1 = n)) : contrib bs xa m n = 0 := by
  induction bs generalizing xa with
  | nil => cases xa <;> rfl
  | cons p rest ih =>
    cases xa with
    | nil => rfl
    | cons a as =>
      simp only [contrib]
      rw [if_neg (h p (by simp)), ih as (fun q hq => h q (by simp [hq])), zero_add]

theorem writeBack_getE (bs : List (ℕ × ℕ × ℚ)) (syn : Grid) (xa : List ℚ) (m n : ℕ)
    (hlen : xa.length = bs.length)
    (hb : ∀ p ∈ bs, p.1 < syn.length ∧ p.2.1 < (syn.getD p.1 []).length) :
    getE (writeBack syn bs xa) m n = getE syn m n + contrib bs xa m n := by
  induction bs generalizing syn xa with
  | nil =>
    cases xa with
    | nil => simp [writeBack, contrib]
    | cons a as => simp at hlen
  | cons p rest ih =>
    cases xa with
    | nil => simp at hlen
    | cons a as =>
      simp only [writeBack, contrib]
      have hp := hb p (by simp)
      have hlen' : as.length = rest.length := by simpa using hlen
      have hb' : ∀ q ∈ rest,
          q.1 < (set2 syn p.1 p.2.1 (getE syn p.1 p.2.1 + a)).length ∧
          q.2.1 < ((set2 syn p.1 p.2.1 (getE syn p.1 p.2.1 + a)).getD q.1 []).length := by
        intro q hq
        have hq' := hb q (by simp [hq])
        rw [set2_length, set2_row_length]
        exact hq'
      rw [ih (set2 syn p.1 p.2.1 (getE syn p.1 p.2.1 + a)) as hlen' hb']
      by_cases hmn : p.1 = m ∧ p.2.1 = n
      · rw [if_pos hmn, ← hmn.1, ← hmn.2, getE_set2_eq syn p.1 p.2.1 _ hp.1 hp.2]
        ring
      · rw [if_neg hmn, getE_set2_ne syn p.1 p.2.1 m n _ hmn, zero_add]

theorem writeBack_frame (bs : List (ℕ × ℕ × ℚ)) (syn : Grid) (xa : List ℚ) (m n : ℕ)
    (h : ∀ p ∈ bs, ¬(p.1 = m ∧ p.2.1 = n)) :
    getE (writeBack syn bs xa) m n = getE syn m n := by
  induction bs generalizing syn xa with
  | nil => cases xa <;> rfl
  | cons p rest ih =>
    cases xa with
    | nil => rfl
    | cons a as =>
      simp only [writeBack]
      rw [ih _ as (fun q hq => h q (by simp [hq])),
        getE_set2_ne syn p.1 p.2.1 m n _ (h p (by simp))]

/-- Claim C10: the output grid is created with the fine grid's shape and all
cells zero; each analysis element is added to the cell indexed by its
`back_sel` record (the final cell value is the initial value plus the total
contribution of the matching analysis elements — accumulation, not
replacement); and a write leaves every cell not indexed by the neighborhood
unchanged. -/
theorem claim_C10_output_grid :
    (∀ smooth : Grid, (synInit smooth).length = smooth.length ∧
      (∀ i : ℕ, ((synInit smooth).getD i []).length = (smooth.getD i []).length) ∧
      ∀ row ∈ synInit smooth, ∀ x ∈ row, x = 0) ∧
    (∀ (syn : Grid) (bs : List (ℕ × ℕ × ℚ)) (xa : List ℚ) (m n : ℕ),
      xa.length = bs.length →
      (∀ p ∈ bs, p.1 < syn.length ∧ p.2.1 < (syn.getD p.1 []).length) →
      getE (writeBack syn bs xa) m n = getE syn m n + contrib bs xa m n) ∧
    (∀ (syn : Grid) (bs : List (ℕ × ℕ × ℚ)) (xa : List ℚ) (m n : ℕ),
      (∀ p ∈ bs, ¬(p.1 = m ∧ p.2.1 = n)) →
      getE (writeBack syn bs xa) m n = getE syn m n) := by
  refine ⟨?_, fun syn bs xa m n hlen hb => writeBack_getE bs syn xa m n hlen hb,
    fun syn bs xa m n h => writeBack_frame bs syn xa m n h⟩
  intro smooth
  refine ⟨by simp [synInit], ?_, ?_⟩
  · intro i
    unfold synInit
    rcases Nat.lt_or_ge i smooth.length with hi | hi
    · rw [getD_map' _ _ i [] [] (by simpa using hi)]
      simp
    · rw [getD_of_le _ _ _ (by simpa using hi), getD_of_le _ _ _ hi]
  · intro row hrow x hx
    obtain ⟨r, _, rfl⟩ := List.mem_map.mp hrow
    obtain ⟨w, _, rfl⟩ := List.mem_map.mp hx
    rfl

/-- Witness for C10: a `2 × 2` zero grid receives one analysis element
additively at cell `(0, 1)` while cell `(1, 1)` stays untouched. -/
theorem claim_C10_output_grid_witness :
    (synInit [[1, 2], [3, 4]]).length = 2 ∧
    getE (writeBack [[0, 0], [0, 0]] [((0 : ℕ), (1 : ℕ), (9 : ℚ))] [5]) 0 1 =
      getE [[0, 0], [0, 0]] 0 1 + contrib [((0 : ℕ), (1 : ℕ), (9 : ℚ))] [5] 0 1 ∧
    getE (writeBack [[0, 0], [0, 0]] [((0 : ℕ), (1 : ℕ), (9 : ℚ))] [5]) 1 1 =
      getE [[0, 0], [0, 0]] 1 1 := by
  refine ⟨?_, ?_, ?_⟩
  · have h := (claim_C10_output_grid.1 [[1, 2], [3, 4]]).1
    simpa using h
  · exact claim_C10_output_grid.2.1 [[0, 0], [0, 0]] [((0 : ℕ), (1 : ℕ), (9 : ℚ))] [5] 0 1
      (by decide) (by decide)
  · exact claim_C10_output_grid.2.2 [[0, 0], [0, 0]] [((0 : ℕ), (1 : ℕ), (9 : ℚ))] [5] 1 1
      (by decide)

theorem roundHalfEven_eq (q : ℚ) (f : ℤ) (h1 : (f : ℚ) ≤ q) (h2 : q < (f : ℚ) + 1) :
    roundHalfEven q = if q - (f : ℚ) < 1/2 then f
      else if 1/2 < q - (f : ℚ) then f + 1 else if f % 2 = 0 then f else f + 1 := by
  have hf : ⌊q⌋ = f := by
    rw [Int.floor_eq_iff]
    exact ⟨h1, h2⟩
  simp only [roundHalfEven, hf]

/-- Counterexample to claim C4: with fine latitudes `[[5, 15]]` and coarse
latitude `[[10]]`, lines 102-103 produce the elementwise array `[[0, 2]]` —
two different values, one of them not positive — so the computed ratio is
neither a single integer per axis nor necessarily positive. -/
theorem claim_C4_counterexample :
    ratioArr [[5, 15]] [[10]] = some [[0, 2]] ∧ ¬((0 : ℤ) = 2) ∧ ¬(0 < (0 : ℤ)) := by
  have h05 : roundHalfEven ((5 : ℚ)/10) = 0 := by
    rw [roundHalfEven_eq ((5 : ℚ)/10) 0 (by norm_num) (by norm_num)]
    norm_num
  have h15 : roundHalfEven ((15 : ℚ)/10) = 2 := by
    rw [roundHalfEven_eq ((15 : ℚ)/10) 1 (by norm_num) (by norm_num)]
    norm_num
  refine ⟨?_, by decide, by decide⟩
  simp [ratioArr, elemDivB, rowsOf, colsOf, bIdx, getE, List.range_succ, h05, h15]

/-- Claim C4 as amended: the resolution-ratio computation of lines 102-103 is
elementwise over the numpy-broadcast pair of coordinate arrays: when the
shapes are broadcast-compatible it returns an integer array of the broadcast
shape whose entry `(i, j)` is the half-to-even rounding of
`fine[i][j] / coarse[i][j]` (length-1 axes repeated), not a single pair of
positive integers. -/
theorem claim_C4_elementwise (s c : Grid) (i j : ℕ)
    (hr : rowsOf s = rowsOf c ∨ rowsOf s = 1 ∨ rowsOf c = 1)
    (hc : colsOf s = colsOf c ∨ colsOf s = 1 ∨ colsOf c = 1)
    (hi : i < max (rowsOf s) (rowsOf c)) (hj : j < max (colsOf s) (colsOf c)) :
    ∃ arr, ratioArr s c = some arr ∧
      (arr.getD i []).getD j 0 =
        roundHalfEven (getE s (bIdx (rowsOf s) i) (bIdx (colsOf s) j) /
          getE c (bIdx (rowsOf c) i) (bIdx (colsOf c) j)) := by
  unfold ratioArr elemDivB
  rw [if_pos ⟨hr, hc⟩]
  refine ⟨_, rfl, ?_⟩
  rw [getD_map' (fun row => row.map roundHalfEven) _ i [] [] (by simpa using hi)]
  rw [getD_map' _ _ i 0 [] (by simpa using hi), getD_range' _ _ _ hi]
  rw [getD_map' roundHalfEven _ j 0 0 (by simpa using hj)]
  rw [getD_map' _ _ j 0 0 (by simpa using hj), getD_range' _ _ _ hj]

/-- Witness for the amended C4 at `s = [[5, 15]]`, `c = [[10]]`, entry
`(0, 1)`. -/
theorem claim_C4_elementwise_witness :
    ∃ arr, ratioArr [[5, 15]] [[10]] = some arr ∧
      (arr.getD 0 []).getD 1 0 =
        roundHalfEven (getE [[5, 15]] (bIdx (rowsOf [[5, 15]]) 0) (bIdx (colsOf [[5, 15]]) 1) /
          getE [[10]] (bIdx (rowsOf [[10]]) 0) (bIdx (colsOf [[10]]) 1)) :=
  claim_C4_elementwise [[5, 15]] [[10]] 0 1 (by decide) (by decide) (by decide) (by decide)
